import Mathlib

/-!
Verification of the AVL tree component of the `typ` Go library
(`pkg/avl`, stored in this repository next to the sync2 sources).

The Go code is shallowly embedded: the `*node[T]` pointer structure becomes
the inductive type `Node` with a `nil` constructor, Go `int` fields become `Int`,
the comparator field `compare func(a, b T) int` (a Go function value that
may be nil) becomes `Option (α → α → Int)`, and Go runtime panics (calls
through a nil comparator) become `none` results.  Go `==` on a
`comparable` type parameter becomes decidable equality.
-/

namespace avl

/-- Embedding of the Go `balanceFactor` type and its three constants
`balanceBalanced = 0`, `balanceRightHeavy = 1`, `balanceLeftHeavy = -1`. -/
inductive balanceFactor where
  | balanced
  | rightHeavy
  | leftHeavy
deriving DecidableEq

/-- Embedding of the Go struct `node[T]` with fields `value T`,
`left, right *node[T]` and `height int`.  A nil Go pointer is the `nil`
constructor. -/
inductive Node (α : Type) where
  | nil
  | node (value : α) (left : Node α) (right : Node α) (height : Int)
deriving DecidableEq

namespace Node

variable {α : Type}

/-- The `height` field of a node; reading it through a nil pointer never
happens in the Go code (guarded by `leftHeight`/`rightHeight`), so the
`nil` case is an arbitrary total completion. -/
def heightOf : Node α → Int
  | .nil => 0
  | .node _ _ _ h => h

/-- The `left` field of a node (nil pointer reads never occur in Go). -/
def leftOf : Node α → Node α
  | .nil => .nil
  | .node _ l _ _ => l

/-- The `right` field of a node (nil pointer reads never occur in Go). -/
def rightOf : Node α → Node α
  | .nil => .nil
  | .node _ _ r _ => r

/-- Go `func (n *node[T]) leftHeight() int`: 0 when `n.left == nil`,
else `n.left.height`. -/
def leftHeight : Node α → Int
  | .nil => 0
  | .node _ l _ _ => l.heightOf

/-- Go `func (n *node[T]) rightHeight() int`. -/
def rightHeight : Node α → Int
  | .nil => 0
  | .node _ _ r _ => r.heightOf

/-- Go `func (n *node[T]) calcHeight() int`: 0 for a leaf, otherwise
`1 + typ.Max(leftHeight, rightHeight)` with the one-child cases spelled
out exactly as in the source. -/
def calcHeight : Node α → Int
  | .nil => 0
  | .node _ .nil .nil _ => 0
  | .node _ .nil r _ => 1 + r.heightOf
  | .node _ l .nil _ => 1 + l.heightOf
  | .node _ l r _ => 1 + max l.heightOf r.heightOf

/-- Go `func (n *node[T]) balance() balanceFactor`: compares the cached
child heights; `leftHeavy` when `leftHeight-rightHeight > 1`,
`rightHeavy` when `rightHeight-leftHeight > 1`, else `balanced`. -/
def balance (n : Node α) : balanceFactor :=
  if n.leftHeight - n.rightHeight > 1 then .leftHeavy
  else if n.rightHeight - n.leftHeight > 1 then .rightHeavy
  else .balanced

/-- Helper for the rotation bodies: Go's
`if p != nil { p.height = p.calcHeight() }` pattern, which recomputes the
cached height of the root of a (possibly nil) subtree in place. -/
def updateHeight : Node α → Node α
  | .nil => .nil
  | .node v l r h => .node v l r (Node.node v l r h).calcHeight

/-- Go `func (n *node[T]) rotateLeft() *node[T]`.  The copy `prevRoot := *n`
takes `n`'s place as the new left child; heights are recomputed in source
order (transplanted subtree, then old root, then new root).  The Go method
dereferences `n.right`, so a nil right child would panic; `rebalance` only
calls it when the cached heights prove `n.right != nil`, and the `nil`
fallback here returns the node unchanged. -/
def rotateLeft : Node α → Node α
  | .nil => .nil
  | .node v l .nil h => .node v l .nil h
  | .node v l (.node rv rl rr rh) h =>
    let rl2 := rl.updateHeight
    let prev := Node.node v l rl2 (Node.node v l rl2 h).calcHeight
    Node.node rv prev rr (Node.node rv prev rr rh).calcHeight

/-- Go `func (n *node[T]) rotateRight() *node[T]` (mirror image of
`rotateLeft`, same nil-fallback convention). -/
def rotateRight : Node α → Node α
  | .nil => .nil
  | .node v .nil r h => .node v .nil r h
  | .node v (.node lv ll lr lh) r h =>
    let lr2 := lr.updateHeight
    let prev := Node.node v lr2 r (Node.node v lr2 r h).calcHeight
    Node.node lv ll prev (Node.node lv ll prev lh).calcHeight

/-- Go `func (n *node[T]) rotateLeftRight() *node[T]`:
`n.right = n.right.rotateRight(); return n.rotateLeft()`. -/
def rotateLeftRight : Node α → Node α
  | .nil => .nil
  | .node v l r h => (Node.node v l r.rotateRight h).rotateLeft

/-- Go `func (n *node[T]) rotateRightLeft() *node[T]`:
`n.left = n.left.rotateLeft(); return n.rotateRight()`. -/
def rotateRightLeft : Node α → Node α
  | .nil => .nil
  | .node v l r h => (Node.node v l.rotateLeft r h).rotateRight

/-- Whether this child pointer is nil (Go `x == nil` on `*node[T]`). -/
def isNil : Node α → Bool
  | .nil => true
  | .node .. => false

/-- Go `func (n *node[T]) rebalance() *node[T]`. -/
def rebalance (n : Node α) : Node α :=
  if n.balance = .rightHeavy then
    if n.rightOf.isNil = false ∧ n.rightOf.balance = .leftHeavy then n.rotateLeftRight
    else n.rotateLeft
  else if n.balance = .leftHeavy then
    if n.leftOf.isNil = false ∧ n.leftOf.balance = .rightHeavy then n.rotateRightLeft
    else n.rotateRight
  else n

/-- Go `func (n *node[T]) add(value T, compare func(a, b T) int) *node[T]`:
descend by `compare` (strictly-less goes left, everything else right), make
a fresh leaf `&node[T]{value: value}` (height 0) in an empty slot, then
`return n.rebalance()`.  Note that the source never recomputes `n.height`
on this path. -/
def add (cmp : α → α → Int) (value : α) : Node α → Node α
  | .nil => .nil
  | .node v l r h =>
    if cmp value v < 0 then
      let l2 := match l with
        | .nil => Node.node value .nil .nil 0
        | _ => l.add cmp value
      (Node.node v l2 r h).rebalance
    else
      let r2 := match r with
        | .nil => Node.node value .nil .nil 0
        | _ => r.add cmp value
      (Node.node v l r2 h).rebalance

/-- The in-order traversal sequence produced by Go
`func (n *node[T]) walkInOrder(f func(v T))`: left branch, own value,
right branch. -/
def inorder : Node α → List α
  | .nil => []
  | .node v l r _ => inorder l ++ v :: inorder r

/-- The pre-order traversal sequence produced by Go `walkPreOrder`:
own value, left branch, right branch. -/
def preorder : Node α → List α
  | .nil => []
  | .node v l r _ => v :: (preorder l ++ preorder r)

/-- The post-order traversal sequence produced by Go `walkPostOrder`. -/
def postorder : Node α → List α
  | .nil => []
  | .node v l r _ => postorder l ++ postorder r ++ [v]

/-- Go `func (n *node[T]) find(value T, compare func(a, b T) int) *node[T]`:
an iterative descent, rendered recursively.  The loop cases in source
order: return `current` on `current.value == value` (Go `==`); step to the
left child when it exists and `compare(value, current.value) < 0`; else
step to the right child when it exists; else return nil. -/
def find [DecidableEq α] (cmp : α → α → Int) (value : α) : Node α → Option (Node α)
  | .nil => none
  | .node v l r h =>
    if v = value then some (.node v l r h)
    else if l ≠ .nil ∧ cmp value v < 0 then l.find cmp value
    else if r ≠ .nil then r.find cmp value
    else none

/-- Go `func (n *node[T]) contains(value T, compare ...) bool`:
`n.find(value, compare) != nil`. -/
def containsN [DecidableEq α] (cmp : α → α → Int) (value : α) (n : Node α) : Bool :=
  (n.find cmp value).isSome

/-- Go `func (n *node[T]) popLeftMost() (child, leftMost *node[T])`,
expressed over the fields of the (always non-nil) receiver.  Returns the
replacement subtree and the extracted left-most value; in Go the caller
only keeps `leftMost.value`, overwriting its links and height. -/
def popLeftMost (v : α) (l r : Node α) (h : Int) : Node α × α :=
  match l with
  | .nil => (r, v)
  | .node lv ll lr lh =>
    let p := popLeftMost lv ll lr lh
    (Node.node v p.1 r (Node.node v p.1 r h).calcHeight, p.2)

/-- Go `func (n *node[T]) remove(value T, compare ...) (*node[T], bool)`.
Matches by Go `==` at the current node; a matched node is dropped (leaf),
replaced by its only child, or replaced by the left-most value popped from
its right subtree, followed by a height recomputation and `rebalance`.
Otherwise it recurses left only when `n.left != nil` and the value
compares strictly less, else right when `n.right != nil`; a failed
recursion leaves the node untouched and reports false. -/
def remove [DecidableEq α] (cmp : α → α → Int) (value : α) : Node α → Node α × Bool
  | .nil => (.nil, false)
  | .node v l r h =>
    if v = value then
      match l, r with
      | .nil, .nil => (.nil, true)
      | .nil, _ => (r, true)
      | _, .nil => (l, true)
      | _, .node rv rl rr rh =>
        let p := popLeftMost rv rl rr rh
        ((Node.node p.2 l p.1 (Node.node p.2 l p.1 h).calcHeight).rebalance, true)
    else if l ≠ .nil ∧ cmp value v < 0 then
      match l.remove cmp value with
      | (newNode, true) =>
        ((Node.node v newNode r (Node.node v newNode r h).calcHeight).rebalance, true)
      | (_, false) => (Node.node v l r h, false)
    else if r ≠ .nil then
      match r.remove cmp value with
      | (newNode, true) =>
        ((Node.node v l newNode (Node.node v l newNode h).calcHeight).rebalance, true)
      | (_, false) => (Node.node v l r h, false)
    else (Node.node v l r h, false)

end Node

/-- Embedding of the Go struct `Tree[T]` with fields
`compare func(a, b T) int` (`none` = the nil zero value), `root *node[T]`
and `count int`. -/
structure Tree (α : Type) where
  compare : Option (α → α → Int)
  root : Node α
  count : Int

/-- Go `func New[T comparable](compare func(a, b T) int) Tree[T]`. -/
def New {α : Type} (cmp : α → α → Int) : Tree α :=
  { compare := some cmp, root := .nil, count := 0 }

/-- Go `func Compare[T constraints.Ordered](a, b T) int` from the typ
package (`util.go`): 1 when `a > b`, -1 when `a < b`, else 0 —
instantiated at `Int`. -/
def intCompare (a b : Int) : Int :=
  if a > b then 1 else if a < b then -1 else 0

/-- Go `func NewOrdered[T typ.Ordered]() Tree[T]`, i.e.
`New(typ.Compare[T])`, instantiated at `Int`. -/
def NewOrdered : Tree Int :=
  New intCompare

namespace Tree

variable {α : Type}

/-- Go `func (n *Tree[T]) Len() int`: returns `n.count`. -/
def Len (t : Tree α) : Int := t.count

/-- Go `func (n *Tree[T]) SliceInOrder() []T` (the value sequence the
in-order walk feeds to the collecting callback). -/
def SliceInOrder (t : Tree α) : List α := t.root.inorder

/-- Go `func (n *Tree[T]) SlicePreOrder() []T`. -/
def SlicePreOrder (t : Tree α) : List α := t.root.preorder

/-- Go `func (n *Tree[T]) SlicePostOrder() []T`. -/
def SlicePostOrder (t : Tree α) : List α := t.root.postorder

/-- Go `func (n *Tree[T]) Add(value T)`: an empty root is replaced by a
fresh leaf without consulting the comparator; otherwise
`n.root = n.root.add(value, n.compare)`, whose very first statement calls
the comparator — with the nil comparator of a zero-value `Tree` this is a
Go runtime panic, modelled as `none`.  `count` is incremented
unconditionally. -/
def Add (t : Tree α) (value : α) : Option (Tree α) :=
  match t.root with
  | .nil => some { t with root := .node value .nil .nil 0, count := t.count + 1 }
  | .node v l r h =>
    match t.compare with
    | some cmp =>
      some { t with root := (Node.node v l r h).add cmp value, count := t.count + 1 }
    | none => none

/-- Go `func (n *Tree[T]) Remove(value T) bool`: false for an empty root;
otherwise `n.root, ok = n.root.remove(value, n.compare)` followed by an
unconditional `n.count--`, returning `ok`.  A nil comparator with a
non-empty root is modelled as a panic (`none`); Go panics on the first
comparator call the descent reaches, a path no claim exercises. -/
def Remove [DecidableEq α] (t : Tree α) (value : α) : Option (Tree α × Bool) :=
  match t.root with
  | .nil => some (t, false)
  | .node v l r h =>
    match t.compare with
    | some cmp =>
      let p := (Node.node v l r h).remove cmp value
      some ({ t with root := p.1, count := t.count - 1 }, p.2)
    | none => none

/-- Go `func (n *Tree[T]) Contains(value T) bool`: false for an empty
root, else `n.root.contains(value, n.compare)`.  Same panic modelling as
`Remove` for a nil comparator. -/
def Contains [DecidableEq α] (t : Tree α) (value : α) : Option Bool :=
  match t.root with
  | .nil => some false
  | .node v l r h =>
    match t.compare with
    | some cmp => some ((Node.node v l r h).containsN cmp value)
    | none => none

/-- Go `func (n *Tree[T]) Clear()`: `n.root = nil; n.count = 0`. -/
def Clear (t : Tree α) : Tree α :=
  { t with root := .nil, count := 0 }

/-- Go `func (n *Tree[T]) Clone() Tree[T]`: `var clone Tree[T]` (the zero
value, whose `compare` field is nil) followed by
`n.WalkPreOrder(clone.Add)`, i.e. the source's pre-order values are fed to
`Add` on the zero-value tree one by one. -/
def Clone (t : Tree α) : Option (Tree α) :=
  t.SlicePreOrder.foldlM Tree.Add { compare := none, root := .nil, count := 0 }

end Tree

/-- A single mutating call in a test scenario: `Add value` or
`Remove value` (the Boolean result of `Remove` is dropped). -/
inductive Op (α : Type) where
  | add (value : α)
  | remove (value : α)

/-- Run one `Op` against a tree. -/
def Tree.applyOp [DecidableEq α] (t : Tree α) : Op α → Option (Tree α)
  | .add v => t.Add v
  | .remove v => (t.Remove v).map Prod.fst

/-- Run a finite call sequence against a tree. -/
def Tree.applyOps [DecidableEq α] (t : Tree α) (ops : List (Op α)) : Option (Tree α) :=
  ops.foldlM Tree.applyOp t

/-- Harness for the insert/remove round-trip scenario: perform the
`Remove` calls one after another, collecting every Boolean result. -/
def Tree.removeSeq [DecidableEq α] (t : Tree α) : List α → Option (Tree α × List Bool)
  | [] => some (t, [])
  | v :: vs =>
    match t.Remove v with
    | none => none
    | some (t2, ok) =>
      match t2.removeSeq vs with
      | none => none
      | some (t3, oks) => some (t3, ok :: oks)

/-- Harness: perform the `Add` calls one after another. -/
def Tree.addAll [DecidableEq α] (t : Tree α) (vs : List α) : Option (Tree α) :=
  vs.foldlM Tree.Add t

/-- The true height of a subtree, computed bottom-up with the convention
the spec states and the code's `calcHeight` uses: an empty child counts
as height 0 and a leaf has height 0.  This ignores the cached `height`
fields. -/
def Node.realHeight : Node α → Int
  | .nil => 0
  | .node _ .nil .nil _ => 0
  | .node _ l r _ => 1 + max l.realHeight r.realHeight

/-- The spec's AVL balance property: at every node the true heights of
the two child subtrees differ by at most 1 (empty child = height 0). -/
def Node.specBalanced : Node α → Bool
  | .nil => true
  | .node _ l r _ =>
    decide ((l.realHeight - r.realHeight).natAbs ≤ 1) && l.specBalanced && r.specBalanced

/-- The spec's search-tree property in its strict node-wise form: at
every node, every value of the left subtree compares strictly less than
the node's value, and every value of the right subtree compares
greater-or-equal. -/
def Node.specStrictSearchTree (cmp : α → α → Int) : Node α → Bool
  | .nil => true
  | .node v l r _ =>
    l.specStrictSearchTree cmp && r.specStrictSearchTree cmp &&
      l.inorder.all (fun x => decide (cmp x v < 0)) &&
      r.inorder.all (fun x => decide (0 ≤ cmp x v))

/-- The weak search-tree invariant the code actually maintains: at every
node, left-subtree values compare less-or-equal and right-subtree values
compare greater-or-equal. -/
def Node.Inv (cmp : α → α → Int) : Node α → Prop
  | .nil => True
  | .node v l r _ =>
    Inv cmp l ∧ Inv cmp r ∧
      (∀ x ∈ l.inorder, cmp x v ≤ 0) ∧ (∀ x ∈ r.inorder, 0 ≤ cmp x v)

/-- A consistent comparator is sign-antisymmetric: `a` orders no later
than `b` exactly when `b` orders no earlier than `a`. -/
def FlipCompat (cmp : α → α → Int) : Prop :=
  ∀ a b, cmp a b ≤ 0 ↔ 0 ≤ cmp b a

/-- A consistent comparator's induced weak order is transitive. -/
def TransCompat (cmp : α → α → Int) : Prop :=
  ∀ a b c, cmp a b ≤ 0 → cmp b c ≤ 0 → cmp a c ≤ 0

/-- A comparator that reports 0 only on (language-)equal values, as the
natural comparator for an ordered type does. -/
def ZeroEq (cmp : α → α → Int) : Prop :=
  ∀ a b, cmp a b = 0 → a = b

/-- A tree handle built by `New cmp` and mutated only through the API:
its comparator field still holds `cmp` and its root satisfies the weak
search-tree invariant. -/
def Tree.WellFormed (cmp : α → α → Int) (t : Tree α) : Prop :=
  t.compare = some cmp ∧ t.root.Inv cmp

/-- The tens bucket of an integer (below 10, the teens 10..19, or 20 and
above), written with comparisons only. -/
def tensBucket (a : Int) : Int := if a < 10 then 0 else if a < 20 then 1 else 2

/-- A comparator that orders integers by their tens bucket only: a
consistent total preorder under which distinct values can compare
equal (for example 10 and 11). -/
def cmpTens (a b : Int) : Int := intCompare (tensBucket a) (tensBucket b)

/-- A comparator that orders integers by absolute value: a consistent
total preorder under which -5 and 5 compare equal yet differ under
Go equality. -/
def cmpAbs (a b : Int) : Int := intCompare a.natAbs b.natAbs

/-! ## Lemmas about traversals and rotations -/

namespace Node

variable {α : Type} {cmp : α → α → Int}

@[simp]
theorem inorder_nil : (Node.nil : Node α).inorder = [] := rfl

@[simp]
theorem inorder_node (v : α) (l r : Node α) (h : Int) :
    (Node.node v l r h).inorder = l.inorder ++ v :: r.inorder := rfl

@[simp]
theorem inorder_updateHeight (n : Node α) : n.updateHeight.inorder = n.inorder := by
  cases n <;> rfl

theorem inorder_rotateLeft (n : Node α) : n.rotateLeft.inorder = n.inorder := by
  match n with
  | .nil => rfl
  | .node v l .nil h => rfl
  | .node v l (.node rv rl rr rh) h =>
    simp [rotateLeft, List.append_assoc]

theorem inorder_rotateRight (n : Node α) : n.rotateRight.inorder = n.inorder := by
  match n with
  | .nil => rfl
  | .node v .nil r h => rfl
  | .node v (.node lv ll lr lh) r h =>
    simp [rotateRight, List.append_assoc]

theorem inorder_rotateLeftRight (n : Node α) : n.rotateLeftRight.inorder = n.inorder := by
  match n with
  | .nil => rfl
  | .node v l r h =>
    rw [rotateLeftRight, inorder_rotateLeft, inorder_node, inorder_node,
      inorder_rotateRight]

theorem inorder_rotateRightLeft (n : Node α) : n.rotateRightLeft.inorder = n.inorder := by
  match n with
  | .nil => rfl
  | .node v l r h =>
    rw [rotateRightLeft, inorder_rotateRight, inorder_node, inorder_node,
      inorder_rotateLeft]

theorem inorder_rebalance (n : Node α) : n.rebalance.inorder = n.inorder := by
  unfold rebalance
  split_ifs <;>
    simp [inorder_rotateLeft, inorder_rotateRight, inorder_rotateLeftRight,
      inorder_rotateRightLeft]

/-! ## Lemmas about the weak search-tree invariant -/

@[simp]
theorem Inv_nil : (Node.nil : Node α).Inv cmp := trivial

theorem Inv_node {v : α} {l r : Node α} {h : Int} :
    (Node.node v l r h).Inv cmp ↔
      l.Inv cmp ∧ r.Inv cmp ∧
        (∀ x ∈ l.inorder, cmp x v ≤ 0) ∧ (∀ x ∈ r.inorder, 0 ≤ cmp x v) :=
  Iff.rfl

theorem Inv_updateHeight {n : Node α} : n.updateHeight.Inv cmp ↔ n.Inv cmp := by
  cases n <;> exact Iff.rfl

theorem Inv_rotateLeft (hflip : FlipCompat cmp) (htrans : TransCompat cmp)
    {n : Node α} (hn : n.Inv cmp) : n.rotateLeft.Inv cmp := by
  match n with
  | .nil => exact hn
  | .node v l .nil h => exact hn
  | .node v l (.node rv rl rr rh) h =>
    obtain ⟨hl, ⟨hrl, hrr, brl, brr⟩, bl, br⟩ := hn
    have hvrv : cmp v rv ≤ 0 := (hflip v rv).mpr (br rv (by simp))
    refine ⟨⟨hl, Inv_updateHeight.mpr hrl, bl, ?_⟩, hrr, ?_, brr⟩
    · intro x hx
      rw [inorder_updateHeight] at hx
      exact br x (by simp [hx])
    · intro x hx
      rw [inorder_node, inorder_updateHeight] at hx
      rcases List.mem_append.mp hx with hx | hx
      · exact htrans x v rv (bl x hx) hvrv
      · rcases List.mem_cons.mp hx with rfl | hx
        · exact hvrv
        · exact brl x hx

theorem Inv_rotateRight (hflip : FlipCompat cmp) (htrans : TransCompat cmp)
    {n : Node α} (hn : n.Inv cmp) : n.rotateRight.Inv cmp := by
  match n with
  | .nil => exact hn
  | .node v .nil r h => exact hn
  | .node v (.node lv ll lr lh) r h =>
    obtain ⟨⟨hll, hlr, bll, blr⟩, hr, bl, br⟩ := hn
    have hlvv : cmp lv v ≤ 0 := bl lv (by simp)
    refine ⟨hll, ⟨Inv_updateHeight.mpr hlr, hr, ?_, br⟩, bll, ?_⟩
    · intro x hx
      rw [inorder_updateHeight] at hx
      exact bl x (by simp [hx])
    · intro x hx
      rw [inorder_node, inorder_updateHeight] at hx
      rcases List.mem_append.mp hx with hx | hx
      · exact blr x hx
      · rcases List.mem_cons.mp hx with rfl | hx
        · exact (hflip lv x).mp hlvv
        · exact (hflip lv x).mp
            (htrans lv v x hlvv ((hflip v x).mpr (br x hx)))

theorem Inv_rotateLeftRight (hflip : FlipCompat cmp) (htrans : TransCompat cmp)
    {n : Node α} (hn : n.Inv cmp) : n.rotateLeftRight.Inv cmp := by
  match n with
  | .nil => exact hn
  | .node v l r h =>
    obtain ⟨hl, hr, bl, br⟩ := hn
    refine Inv_rotateLeft hflip htrans ⟨hl, Inv_rotateRight hflip htrans hr, bl, ?_⟩
    intro x hx
    exact br x (by rwa [inorder_rotateRight] at hx)

theorem Inv_rotateRightLeft (hflip : FlipCompat cmp) (htrans : TransCompat cmp)
    {n : Node α} (hn : n.Inv cmp) : n.rotateRightLeft.Inv cmp := by
  match n with
  | .nil => exact hn
  | .node v l r h =>
    obtain ⟨hl, hr, bl, br⟩ := hn
    refine Inv_rotateRight hflip htrans ⟨Inv_rotateLeft hflip htrans hl, hr, ?_, br⟩
    intro x hx
    exact bl x (by rwa [inorder_rotateLeft] at hx)

theorem Inv_rebalance (hflip : FlipCompat cmp) (htrans : TransCompat cmp)
    {n : Node α} (hn : n.Inv cmp) : n.rebalance.Inv cmp := by
  unfold rebalance
  split_ifs <;>
    first
      | exact Inv_rotateLeftRight hflip htrans hn
      | exact Inv_rotateLeft hflip htrans hn
      | exact Inv_rotateRightLeft hflip htrans hn
      | exact Inv_rotateRight hflip htrans hn
      | exact hn

/-- The weak invariant forces the in-order traversal to be
non-decreasing under the comparator. -/
theorem chain'_inorder (hflip : FlipCompat cmp) {n : Node α} (hn : n.Inv cmp) :
    List.Chain' (fun a b => cmp a b ≤ 0) n.inorder := by
  induction n with
  | nil => simp
  | node v l r h ihl ihr =>
    obtain ⟨hl, hr, bl, br⟩ := hn
    rw [inorder_node]
    refine List.chain'_append.mpr ⟨ihl hl, ?_, ?_⟩
    · refine List.chain'_cons'.mpr ⟨?_, ihr hr⟩
      intro y hy
      exact (hflip v y).mpr (br y (List.mem_of_mem_head? hy))
    · intro x hx y hy
      simp only [List.head?_cons, Option.mem_def, Option.some.injEq] at hy
      subst hy
      exact bl x (List.mem_of_mem_getLast? hx)

/-! ## Lemmas about insertion -/

theorem ne_nil_of_mem_inorder {x : α} {n : Node α} (hx : x ∈ n.inorder) :
    n ≠ .nil := by
  cases n with
  | nil => simp at hx
  | node v l r h => exact fun hc => Node.noConfusion hc

theorem isNil_false_of_ne_nil {n : Node α} (hn : n ≠ .nil) : n.isNil = false := by
  cases n with
  | nil => exact absurd rfl hn
  | node v l r h => rfl

theorem add_perm (cmp : α → α → Int) (value : α) {n : Node α} (hn : n ≠ .nil) :
    (n.add cmp value).inorder.Perm (value :: n.inorder) := by
  induction n with
  | nil => exact absurd rfl hn
  | node v l r h ihl ihr =>
    by_cases hc : cmp value v < 0
    · rcases l with _ | ⟨lv, ll, lr, lh⟩
      · simp [add, hc, inorder_rebalance]
      · have hp := ihl (fun hc => Node.noConfusion hc)
        simp only [add, if_pos hc, inorder_rebalance, inorder_node]
        exact hp.append_right _
    · rcases r with _ | ⟨rv, rl, rr, rh⟩
      · simp only [add, if_neg hc, inorder_rebalance, inorder_node]
        simpa using @List.perm_middle α value (l.inorder ++ [v]) []
      · have hp := ihr (fun hc => Node.noConfusion hc)
        simp only [add, if_neg hc, inorder_rebalance, inorder_node]
        refine (List.Perm.append_left l.inorder (hp.cons v)).trans ?_
        rw [show l.inorder ++ v :: value :: (Node.node rv rl rr rh).inorder
            = (l.inorder ++ [v]) ++ value :: (Node.node rv rl rr rh).inorder by simp]
        refine List.perm_middle.trans ?_
        rw [show (l.inorder ++ [v]) ++ (Node.node rv rl rr rh).inorder
            = l.inorder ++ v :: (Node.node rv rl rr rh).inorder by simp]
        exact List.Perm.refl _

theorem add_Inv (hflip : FlipCompat cmp) (htrans : TransCompat cmp) (value : α)
    {n : Node α} (hn : n.Inv cmp) : (n.add cmp value).Inv cmp := by
  induction n with
  | nil => exact hn
  | node v l r h ihl ihr =>
    obtain ⟨hl, hr, bl, br⟩ := hn
    by_cases hc : cmp value v < 0
    · rcases l with _ | ⟨lv, ll, lr, lh⟩
      · rw [show (Node.node v Node.nil r h).add cmp value
            = (Node.node v (Node.node value .nil .nil 0) r h).rebalance by
            simp [add, hc]]
        refine Inv_rebalance hflip htrans ⟨⟨trivial, trivial, ?_, ?_⟩, hr, ?_, br⟩ <;>
          simp [le_of_lt hc]
      · rw [show (Node.node v (Node.node lv ll lr lh) r h).add cmp value
            = (Node.node v ((Node.node lv ll lr lh).add cmp value) r h).rebalance by
            simp [add, hc]]
        refine Inv_rebalance hflip htrans ⟨ihl hl, hr, ?_, br⟩
        intro x hx
        have hx2 := (add_perm cmp value (n := Node.node lv ll lr lh)
          (fun hc0 => Node.noConfusion hc0)).mem_iff.mp hx
        rcases List.mem_cons.mp hx2 with rfl | hx3
        · exact le_of_lt hc
        · exact bl x hx3
    · have hc2 : 0 ≤ cmp value v := not_lt.mp hc
      rcases r with _ | ⟨rv, rl, rr, rh⟩
      · rw [show (Node.node v l Node.nil h).add cmp value
            = (Node.node v l (Node.node value .nil .nil 0) h).rebalance by
            simp [add, hc]]
        refine Inv_rebalance hflip htrans ⟨hl, ⟨trivial, trivial, ?_, ?_⟩, bl, ?_⟩ <;>
          simp [hc2]
      · rw [show (Node.node v l (Node.node rv rl rr rh) h).add cmp value
            = (Node.node v l ((Node.node rv rl rr rh).add cmp value) h).rebalance by
            simp [add, hc]]
        refine Inv_rebalance hflip htrans ⟨hl, ihr hr, bl, ?_⟩
        intro x hx
        have hx2 := (add_perm cmp value (n := Node.node rv rl rr rh)
          (fun hc0 => Node.noConfusion hc0)).mem_iff.mp hx
        rcases List.mem_cons.mp hx2 with rfl | hx3
        · exact hc2
        · exact br x hx3

/-! ## Lemmas about removal -/

theorem popLeftMost_spec (hflip : FlipCompat cmp) (htrans : TransCompat cmp) :
    ∀ (l : Node α) (v : α) (r : Node α) (h : Int),
      (Node.node v l r h).Inv cmp →
        (popLeftMost v l r h).1.Inv cmp ∧
          (Node.node v l r h).inorder
            = (popLeftMost v l r h).2 :: (popLeftMost v l r h).1.inorder ∧
          ∀ x ∈ (popLeftMost v l r h).1.inorder, 0 ≤ cmp x (popLeftMost v l r h).2 := by
  intro l
  induction l with
  | nil =>
    intro v r h hn
    obtain ⟨hl, hr, bl, br⟩ := hn
    exact ⟨hr, by simp [popLeftMost], fun x hx => br x hx⟩
  | node lv ll lr lh ihll ihlr =>
    intro v r h hn
    obtain ⟨hl, hr, bl, br⟩ := hn
    obtain ⟨ih1, ih2, ih3⟩ := ihll lv lr lh hl
    have hred : popLeftMost v (Node.node lv ll lr lh) r h
        = (Node.node v (popLeftMost lv ll lr lh).1 r
            ((Node.node v (popLeftMost lv ll lr lh).1 r h).calcHeight),
          (popLeftMost lv ll lr lh).2) := rfl
    rw [hred]
    have hmem : ∀ x ∈ (popLeftMost lv ll lr lh).1.inorder,
        x ∈ (Node.node lv ll lr lh).inorder := by
      intro x hx
      rw [ih2]
      exact List.mem_cons_of_mem _ hx
    have hpop_mem : (popLeftMost lv ll lr lh).2 ∈ (Node.node lv ll lr lh).inorder := by
      rw [ih2]; exact List.mem_cons_self _ _
    have hq2v : cmp (popLeftMost lv ll lr lh).2 v ≤ 0 := bl _ hpop_mem
    refine ⟨⟨ih1, hr, ?_, br⟩, ?_, ?_⟩
    · intro x hx
      exact bl x (hmem x hx)
    · show (Node.node v (Node.node lv ll lr lh) r h).inorder = _
      rw [inorder_node, ih2]
      rfl
    · intro x hx
      rw [inorder_node] at hx
      rcases List.mem_append.mp hx with hx | hx
      · exact ih3 x hx
      · rcases List.mem_cons.mp hx with rfl | hx
        · exact (hflip _ x).mp hq2v
        · exact (hflip _ x).mp
            (htrans _ v x hq2v ((hflip v x).mpr (br x hx)))

theorem remove_false [DecidableEq α] {value : α} {n : Node α}
    (hko : (n.remove cmp value).2 = false) : (n.remove cmp value).1 = n := by
  induction n with
  | nil => rfl
  | node v l r h ihl ihr =>
    by_cases hv : v = value
    · rcases l with _ | l1 <;> rcases r with _ | r1 <;>
        simp [remove, hv] at hko
    · by_cases hcl : l ≠ .nil ∧ cmp value v < 0
      · rcases hlr : l.remove cmp value with ⟨nn, ok⟩
        cases ok
        · simp [remove, hv, hcl, hlr]
        · simp [remove, hv, hcl, hlr] at hko
      · by_cases hcr : r ≠ .nil
        · rcases hrr : r.remove cmp value with ⟨nn, ok⟩
          cases ok
          · simp [remove, hv, hcl, hcr, hrr]
          · simp [remove, hv, hcl, hcr, hrr] at hko
        · simp [remove, hv, hcl, hcr]

theorem remove_spec [DecidableEq α] (hflip : FlipCompat cmp) (htrans : TransCompat cmp)
    {value : α} {n : Node α} (hn : n.Inv cmp) :
    (n.remove cmp value).1.Inv cmp ∧
      ((n.remove cmp value).2 = true →
        n.inorder.Perm (value :: (n.remove cmp value).1.inorder)) := by
  induction n with
  | nil => exact ⟨trivial, by simp [remove]⟩
  | node v l r h ihl ihr =>
    obtain ⟨hl, hr, bl, br⟩ := hn
    by_cases hv : v = value
    · subst hv
      rcases l with _ | ⟨lv, ll, lr, lh⟩
      · rcases r with _ | ⟨rv, rl, rr, rh⟩
        · have hred : (Node.node v .nil .nil h).remove cmp v = (.nil, true) := by
            simp [remove]
          rw [hred]
          exact ⟨trivial, fun _ => List.Perm.refl _⟩
        · have hred : (Node.node v .nil (Node.node rv rl rr rh) h).remove cmp v
              = (Node.node rv rl rr rh, true) := by
            simp [remove]
          rw [hred]
          exact ⟨hr, fun _ => List.Perm.refl _⟩
      · rcases r with _ | ⟨rv, rl, rr, rh⟩
        · have hred : (Node.node v (Node.node lv ll lr lh) .nil h).remove cmp v
              = (Node.node lv ll lr lh, true) := by
            simp [remove]
          rw [hred]
          refine ⟨hl, fun _ => ?_⟩
          rw [inorder_node, inorder_nil]
          simpa using @List.perm_middle α v (Node.node lv ll lr lh).inorder []
        · obtain ⟨hp1, hp2, hp3⟩ := popLeftMost_spec hflip htrans rl rv rr rh hr
          have hpop_memr : (popLeftMost rv rl rr rh).2
              ∈ (Node.node rv rl rr rh).inorder := by
            rw [hp2]; exact List.mem_cons_self _ _
          have hred : (Node.node v (Node.node lv ll lr lh)
                (Node.node rv rl rr rh) h).remove cmp v
              = ((Node.node (popLeftMost rv rl rr rh).2 (Node.node lv ll lr lh)
                  (popLeftMost rv rl rr rh).1
                  ((Node.node (popLeftMost rv rl rr rh).2 (Node.node lv ll lr lh)
                    (popLeftMost rv rl rr rh).1 h).calcHeight)).rebalance, true) := by
            simp [remove]
          rw [hred]
          constructor
          · refine Inv_rebalance hflip htrans ⟨hl, hp1, ?_, hp3⟩
            intro x hx
            exact htrans x v _ (bl x hx) ((hflip v _).mpr (br _ hpop_memr))
          · intro _
            rw [inorder_rebalance, inorder_node, inorder_node, hp2]
            exact List.perm_middle
    · by_cases hcl : l ≠ .nil ∧ cmp value v < 0
      · rcases hlr : l.remove cmp value with ⟨nn, ok⟩
        obtain ⟨ih1, ih2⟩ := ihl hl
        rw [hlr] at ih1 ih2
        cases ok
        · constructor
          · simp only [remove, if_neg hv, if_pos hcl, hlr]
            exact ⟨hl, hr, bl, br⟩
          · simp [remove, hv, hcl, hlr]
        · have hperm := ih2 rfl
          constructor
          · simp only [remove, if_neg hv, if_pos hcl, hlr]
            refine Inv_rebalance hflip htrans ⟨ih1, hr, ?_, br⟩
            intro x hx
            exact bl x (hperm.mem_iff.mpr (List.mem_cons_of_mem _ hx))
          · intro _
            simp only [remove, if_neg hv, if_pos hcl, hlr, inorder_rebalance,
              inorder_node]
            exact (hperm.append_right _).trans (List.Perm.refl _)
      · by_cases hcr : r ≠ .nil
        · rcases hrr : r.remove cmp value with ⟨nn, ok⟩
          obtain ⟨ih1, ih2⟩ := ihr hr
          rw [hrr] at ih1 ih2
          cases ok
          · constructor
            · simp only [remove, if_neg hv, if_neg hcl, if_pos hcr, hrr]
              exact ⟨hl, hr, bl, br⟩
            · simp [remove, hv, hcl, hcr, hrr]
          · have hperm := ih2 rfl
            constructor
            · simp only [remove, if_neg hv, if_neg hcl, if_pos hcr, hrr]
              refine Inv_rebalance hflip htrans ⟨hl, ih1, bl, ?_⟩
              intro x hx
              exact br x (hperm.mem_iff.mpr (List.mem_cons_of_mem _ hx))
            · intro _
              simp only [remove, if_neg hv, if_neg hcl, if_pos hcr, hrr,
                inorder_rebalance, inorder_node]
              refine (List.Perm.append_left l.inorder (hperm.cons v)).trans ?_
              rw [show l.inorder ++ v :: value :: nn.inorder
                  = (l.inorder ++ [v]) ++ value :: nn.inorder by simp]
              refine List.perm_middle.trans ?_
              rw [show (l.inorder ++ [v]) ++ nn.inorder
                  = l.inorder ++ v :: nn.inorder by simp]
        · have hred : (Node.node v l r h).remove cmp value = (Node.node v l r h, false) := by
            simp [remove, hv, hcl, hcr]
          rw [hred]
          exact ⟨⟨hl, hr, bl, br⟩, by simp⟩

theorem remove_success [DecidableEq α] (hzero : ZeroEq cmp)
    {value : α} {n : Node α} (hn : n.Inv cmp) (hv : value ∈ n.inorder) :
    (n.remove cmp value).2 = true := by
  induction n with
  | nil => simp at hv
  | node v l r h ihl ihr =>
    obtain ⟨hl, hr, bl, br⟩ := hn
    by_cases hvv : v = value
    · rcases l with _ | l1 <;> rcases r with _ | r1 <;> simp [remove, hvv]
    · have hvne : value ≠ v := fun hc => hvv hc.symm
      rw [inorder_node] at hv
      rcases List.mem_append.mp hv with hvl | hvr
      · have hlt : cmp value v < 0 :=
          lt_of_le_of_ne (bl value hvl) (fun hc => hvne (hzero value v hc))
        have hcl : l ≠ .nil ∧ cmp value v < 0 :=
          ⟨ne_nil_of_mem_inorder hvl, hlt⟩
        rcases hlr : l.remove cmp value with ⟨nn, ok⟩
        have hok := ihl hl hvl
        rw [hlr] at hok
        subst hok
        simp [remove, hvv, hcl, hlr]
      · rcases List.mem_cons.mp hvr with rfl | hvr
        · exact absurd rfl hvne
        · have hge : 0 ≤ cmp value v := br value hvr
          have hne : cmp value v ≠ 0 := fun hc => hvne (hzero value v hc)
          have hcl : ¬(l ≠ .nil ∧ cmp value v < 0) := by
            intro hc
            exact absurd hc.2 (not_lt.mpr hge)
          have hcr : r ≠ .nil := ne_nil_of_mem_inorder hvr
          rcases hrr : r.remove cmp value with ⟨nn, ok⟩
          have hok := ihr hr hvr
          rw [hrr] at hok
          subst hok
          simp [remove, hvv, hcl, hcr, hrr]

/-! ## Lemmas about search -/

theorem find_isSome_iff [DecidableEq α] (hzero : ZeroEq cmp) {value : α} {n : Node α}
    (hn : n.Inv cmp) : ((n.find cmp value).isSome = true) ↔ value ∈ n.inorder := by
  induction n with
  | nil => simp [find]
  | node v l r h ihl ihr =>
    obtain ⟨hl, hr, bl, br⟩ := hn
    by_cases hvv : v = value
    · subst hvv
      simp [find]
    · have hvne : value ≠ v := fun hc => hvv hc.symm
      by_cases hcl : l ≠ .nil ∧ cmp value v < 0
      · rw [show (Node.node v l r h).find cmp value = l.find cmp value by
          simp [find, hvv, hcl]]
        rw [ihl hl, inorder_node]
        constructor
        · intro hm
          exact List.mem_append.mpr (Or.inl hm)
        · intro hm
          rcases List.mem_append.mp hm with hm | hm
          · exact hm
          · rcases List.mem_cons.mp hm with rfl | hm
            · exact absurd rfl hvne
            · exact absurd hcl.2 (not_lt.mpr (br value hm))
      · by_cases hcr : r ≠ .nil
        · rw [show (Node.node v l r h).find cmp value = r.find cmp value by
            simp [find, hvv, hcl, hcr]]
          rw [ihr hr, inorder_node]
          constructor
          · intro hm
            exact List.mem_append.mpr (Or.inr (List.mem_cons_of_mem _ hm))
          · intro hm
            rcases List.mem_append.mp hm with hm | hm
            · have hlt : cmp value v < 0 :=
                lt_of_le_of_ne (bl value hm) (fun hc => hvne (hzero value v hc))
              exact absurd ⟨ne_nil_of_mem_inorder hm, hlt⟩ hcl
            · rcases List.mem_cons.mp hm with rfl | hm
              · exact absurd rfl hvne
              · exact hm
        · rw [show (Node.node v l r h).find cmp value = none by
            simp [find, hvv, hcl, hcr]]
          simp only [Option.isSome_none, Bool.false_eq_true, false_iff, inorder_node]
          intro hm
          rcases List.mem_append.mp hm with hm | hm
          · have hlt : cmp value v < 0 :=
              lt_of_le_of_ne (bl value hm) (fun hc => hvne (hzero value v hc))
            exact hcl ⟨ne_nil_of_mem_inorder hm, hlt⟩
          · rcases List.mem_cons.mp hm with rfl | hm
            · exact absurd rfl hvne
            · exact hcr (ne_nil_of_mem_inorder hm)

end Node

/-! ## Tree-level lemmas -/

variable {α : Type} {cmp : α → α → Int}

theorem New_WellFormed (cmp : α → α → Int) : (New cmp).WellFormed cmp :=
  ⟨rfl, trivial⟩

theorem Add_wf (hflip : FlipCompat cmp) (htrans : TransCompat cmp)
    {t : Tree α} (hwf : t.WellFormed cmp) (value : α) :
    ∃ t2, t.Add value = some t2 ∧ t2.WellFormed cmp ∧
      t2.root.inorder.Perm (value :: t.root.inorder) ∧ t2.count = t.count + 1 := by
  obtain ⟨tc, troot, tcount⟩ := t
  obtain ⟨hc, hinv⟩ := hwf
  cases hc
  cases troot with
  | nil =>
    refine ⟨_, rfl, ⟨rfl, ?_⟩, ?_, rfl⟩
    · exact ⟨trivial, trivial, by simp, by simp⟩
    · simp
  | node v l r h =>
    refine ⟨_, rfl, ⟨rfl, ?_⟩, ?_, rfl⟩
    · exact Node.add_Inv hflip htrans value hinv
    · exact Node.add_perm cmp value (fun hc0 => Node.noConfusion hc0)

theorem applyOp_wf [DecidableEq α] (hflip : FlipCompat cmp) (htrans : TransCompat cmp)
    {t : Tree α} (hwf : t.WellFormed cmp) (op : Op α) :
    ∃ t2, t.applyOp op = some t2 ∧ t2.WellFormed cmp := by
  cases op with
  | add v =>
    obtain ⟨t2, heq, hwf2, _, _⟩ := Add_wf hflip htrans hwf v
    exact ⟨t2, by simp [Tree.applyOp, heq], hwf2⟩
  | remove v =>
    obtain ⟨tc, troot, tcount⟩ := t
    obtain ⟨hc, hinv⟩ := hwf
    cases hc
    cases troot with
    | nil => exact ⟨_, rfl, rfl, trivial⟩
    | node v0 l r h =>
      refine ⟨_, rfl, rfl, ?_⟩
      exact (Node.remove_spec hflip htrans hinv).1

theorem applyOps_wf [DecidableEq α] (hflip : FlipCompat cmp) (htrans : TransCompat cmp)
    (ops : List (Op α)) {t : Tree α} (hwf : t.WellFormed cmp) :
    ∃ t2, t.applyOps ops = some t2 ∧ t2.WellFormed cmp := by
  induction ops generalizing t with
  | nil => exact ⟨t, rfl, hwf⟩
  | cons op ops ih =>
    obtain ⟨t1, heq1, hwf1⟩ := applyOp_wf hflip htrans hwf op
    obtain ⟨t2, heq2, hwf2⟩ := ih hwf1
    refine ⟨t2, ?_, hwf2⟩
    simpa [Tree.applyOps, heq1] using heq2

theorem addAll_good [DecidableEq α] (hflip : FlipCompat cmp) (htrans : TransCompat cmp)
    (vs : List α) {t : Tree α} (hwf : t.WellFormed cmp)
    (hcount : t.count = t.root.inorder.length) :
    ∃ t2, t.addAll vs = some t2 ∧ t2.WellFormed cmp ∧
      t2.count = t2.root.inorder.length ∧
      t2.root.inorder.Perm (vs ++ t.root.inorder) := by
  induction vs generalizing t with
  | nil => exact ⟨t, rfl, hwf, hcount, List.Perm.refl _⟩
  | cons v vs ih =>
    obtain ⟨t1, heq1, hwf1, hperm1, hcnt1⟩ := Add_wf hflip htrans hwf v
    have hcount1 : t1.count = t1.root.inorder.length := by
      rw [hcnt1, hcount, hperm1.length_eq]
      simp
    obtain ⟨t2, heq2, hwf2, hcount2, hperm2⟩ := ih hwf1 hcount1
    refine ⟨t2, ?_, hwf2, hcount2, ?_⟩
    · simpa [Tree.addAll, List.foldlM_cons, heq1] using heq2
    · refine hperm2.trans ?_
      refine (List.Perm.append_left vs hperm1).trans ?_
      exact @List.perm_middle α v vs t.root.inorder

theorem removeSeq_all [DecidableEq α] (hflip : FlipCompat cmp) (htrans : TransCompat cmp)
    (hzero : ZeroEq cmp) (rems : List α) {t : Tree α} (hwf : t.WellFormed cmp)
    (hcount : t.count = t.root.inorder.length)
    (hperm : t.root.inorder.Perm rems) :
    ∃ t2 oks, t.removeSeq rems = some (t2, oks) ∧
      oks.all (fun b => b) = true ∧ t2.count = 0 ∧ t2.root = .nil := by
  induction rems generalizing t with
  | nil =>
    have hnil : t.root.inorder = [] := hperm.eq_nil
    have hroot : t.root = .nil := by
      cases hr : t.root with
      | nil => rfl
      | node v l r h => rw [hr] at hnil; simp at hnil
    exact ⟨t, [], rfl, rfl, by rw [hcount, hnil]; rfl, hroot⟩
  | cons v vs ih =>
    have hv : v ∈ t.root.inorder := hperm.mem_iff.mpr (List.mem_cons_self _ _)
    obtain ⟨tc, troot, tcount⟩ := t
    obtain ⟨hc, hinv⟩ := hwf
    cases hc
    cases troot with
    | nil => simp at hv
    | node v0 l r h =>
      have hrs : ((Node.node v0 l r h).remove cmp v).1.Inv cmp ∧
          (((Node.node v0 l r h).remove cmp v).2 = true →
            (Node.node v0 l r h).inorder.Perm
              (v :: ((Node.node v0 l r h).remove cmp v).1.inorder)) :=
        Node.remove_spec hflip htrans hinv
      obtain ⟨hinv2, hperm2⟩ := hrs
      have hok : ((Node.node v0 l r h).remove cmp v).2 = true :=
        Node.remove_success hzero hinv hv
      have hperm3 := hperm2 hok
      have hperm4 : ((Node.node v0 l r h).remove cmp v).1.inorder.Perm vs := by
        refine List.Perm.cons_inv (a := v) ?_
        exact hperm3.symm.trans hperm
      have hcount2 : tcount - 1
          = (((Node.node v0 l r h).remove cmp v).1.inorder.length : Int) := by
        have hlen := hperm3.length_eq
        simp only [List.length_cons] at hlen
        simp only [Tree.count, Tree.root] at hcount
        omega
      obtain ⟨t2, oks, heq2, hall, hcnt2, hroot2⟩ :=
        ih (t := ⟨some cmp, ((Node.node v0 l r h).remove cmp v).1, tcount - 1⟩)
          ⟨rfl, hinv2⟩ hcount2 hperm4
      refine ⟨t2, ((Node.node v0 l r h).remove cmp v).2 :: oks, ?_, ?_, hcnt2, hroot2⟩
      · rw [show (Tree.mk (some cmp) (Node.node v0 l r h) tcount).removeSeq (v :: vs)
            = match (Tree.mk (some cmp)
                (((Node.node v0 l r h).remove cmp v).1) (tcount - 1)).removeSeq vs with
              | none => none
              | some (t3, oks) =>
                some (t3, ((Node.node v0 l r h).remove cmp v).2 :: oks) from rfl]
        rw [heq2]
      · rw [hok]
        simpa using hall

theorem Contains_iff_mem [DecidableEq α] (hzero : ZeroEq cmp)
    {t : Tree α} (hwf : t.WellFormed cmp) (value : α) :
    t.Contains value = some true ↔ value ∈ t.SliceInOrder := by
  obtain ⟨tc, troot, tcount⟩ := t
  obtain ⟨hc, hinv⟩ := hwf
  cases hc
  cases troot with
  | nil => simp [Tree.Contains, Tree.SliceInOrder]
  | node v l r h =>
    rw [show (Tree.mk (some cmp) (Node.node v l r h) tcount).Contains value
        = some ((Node.node v l r h).containsN cmp value) from rfl]
    rw [show (Tree.mk (some cmp) (Node.node v l r h) tcount).SliceInOrder
        = (Node.node v l r h).inorder from rfl]
    rw [show ((Node.node v l r h).containsN cmp value)
        = ((Node.node v l r h).find cmp value).isSome from rfl]
    simp only [Option.some.injEq]
    exact Node.find_isSome_iff hzero hinv

/-! ## The natural and key-projection comparators are consistent -/

theorem intCompare_flip : FlipCompat intCompare := by
  intro a b
  simp only [intCompare]
  split_ifs <;> omega

theorem intCompare_trans : TransCompat intCompare := by
  intro a b c
  simp only [intCompare]
  split_ifs <;> omega

theorem intCompare_zeroEq : ZeroEq intCompare := by
  intro a b h
  simp only [intCompare] at h
  split_ifs at h <;> omega

theorem cmpTens_flip : FlipCompat cmpTens :=
  fun a b => intCompare_flip (tensBucket a) (tensBucket b)

theorem cmpTens_trans : TransCompat cmpTens :=
  fun a b c => intCompare_trans (tensBucket a) (tensBucket b) (tensBucket c)

/-! ## The claims -/

/-- Claim C1: the AVL balance invariant is supposed to hold after every
`Add`, but `node.add` never recomputes `n.height`, so after
`Add 1; Add 2; Add 3; Add 4` on `NewOrdered` the tree is the right chain
1-2-3-4 with all cached heights still 0, and the root's child subtrees
have true heights 0 and 2: the balance property fails. -/
theorem C1_add_sequence_breaks_balance :
    (Tree.applyOps NewOrdered [Op.add 1, Op.add 2, Op.add 3, Op.add 4]).map
        (fun t => (t.root, t.root.specBalanced))
      = some (Node.node 1 .nil
          (Node.node 2 .nil (Node.node 3 .nil (Node.node 4 .nil .nil 0) 0) 0) 0,
        false) := by
  rfl

/-- Claim C2: `Remove` of an absent value on a non-empty tree returns
false and leaves the structure alone, but `Tree.Remove` decrements
`count` unconditionally, so `Len()` drops from 1 to 0 even though the
stored node is still there. -/
theorem C2_remove_absent_decrements_count :
    ((NewOrdered.Add 1).bind (fun t => t.Remove 2)).map
        (fun p => (p.2, p.1.root, p.1.Len))
      = some (false, Node.node 1 .nil .nil 0, 0) := by
  rfl

/-- Claim C3: `Clone` starts from the zero-value tree whose comparator
field is nil instead of the source's comparator, so cloning any tree with
at least two values calls the nil comparator during the second insertion:
a Go runtime panic, modelled as `none`. -/
theorem C3_clone_panics_on_two_values :
    ((NewOrdered.Add 1).bind (fun t => t.Add 2)).bind Tree.Clone = none := by
  rfl

/-- Claim C4, counterexample: with the consistent tens-digit comparator,
after `Add 10..14; Remove 14` the removal-triggered left rotation moves
the compare-equal value 10 into the left subtree of 11, so the strict
node-wise search-tree property claimed by the spec is false, even though
the in-order traversal is still non-decreasing. -/
theorem C4_counterexample_strict_node_property :
    (Tree.applyOps (New cmpTens)
        [Op.add 10, Op.add 11, Op.add 12, Op.add 13, Op.add 14, Op.remove 14]).map
        (fun t => (t.root.specStrictSearchTree cmpTens, t.root))
      = some (false,
          Node.node 11 (Node.node 10 .nil .nil 0)
            (Node.node 12 .nil (Node.node 13 .nil .nil 0) 1) 2)
    ∧ (Tree.applyOps (New cmpTens)
        [Op.add 10, Op.add 11, Op.add 12, Op.add 13, Op.add 14, Op.remove 14]).map
        (fun t => t.SliceInOrder)
      = some [10, 11, 12, 13]
    ∧ List.Chain' (fun a b => cmpTens a b ≤ 0) [10, 11, 12, 13] := by
  refine ⟨rfl, rfl, ?_⟩
  simp [List.chain'_cons, cmpTens, tensBucket, intCompare]

/-- Claim C4, amended: for every finite `Add`/`Remove` sequence executed
from `New cmp` with a consistent comparator, the in-order traversal is
non-decreasing under `cmp` and the weak node-wise invariant (left values
compare less-or-equal, right values greater-or-equal) holds; insertion
places compare-equal duplicates to the right, but rotations may later
move them into a left subtree, so strictness on the left need not hold. -/
theorem C4_inorder_always_sorted [DecidableEq α] (cmp : α → α → Int)
    (hflip : FlipCompat cmp) (htrans : TransCompat cmp) (ops : List (Op α)) :
    ∃ t, (New cmp).applyOps ops = some t ∧ t.root.Inv cmp ∧
      List.Chain' (fun a b => cmp a b ≤ 0) t.SliceInOrder := by
  obtain ⟨t, heq, hwf⟩ := applyOps_wf hflip htrans ops (New_WellFormed cmp)
  exact ⟨t, heq, hwf.2, Node.chain'_inorder hflip hwf.2⟩

/-- Witness for the amended C4 at a concrete comparator and op list. -/
theorem C4_inorder_always_sorted_witness :
    ∃ t, (New cmpTens).applyOps
        [Op.add 20, Op.add 10, Op.remove 20, Op.add 15, Op.remove 7] = some t ∧
      t.root.Inv cmpTens ∧
      List.Chain' (fun a b => cmpTens a b ≤ 0) t.SliceInOrder :=
  C4_inorder_always_sorted cmpTens cmpTens_flip cmpTens_trans
    [Op.add 20, Op.add 10, Op.remove 20, Op.add 15, Op.remove 7]

/-- Claim C5: `Len()` is supposed to always equal the length of
`SliceInOrder()`, but after `Add 1; Remove 2` (a failed removal) the
count is 0 while the slice still has one element. -/
theorem C5_len_diverges_from_slice_length :
    ((NewOrdered.Add 1).bind (fun t => t.Remove 2)).map
        (fun p => (p.1.Len, (p.1.SliceInOrder.length : Int)))
      = some (0, 1) := by
  rfl

/-- Claim C6, counterexample: with the consistent absolute-value
comparator, the tree holding -5 has an element comparing equal to 5
(`cmpAbs (-5) 5 = 0`), yet `Contains 5` returns false because the code
matches with Go `==`, not `compare == 0`. -/
theorem C6_counterexample_contains_compare_equal :
    ((New cmpAbs).Add (-5)).map (fun t => (t.Contains 5, t.SliceInOrder))
        = some (some false, [-5])
      ∧ cmpAbs (-5) 5 = 0 := by
  exact ⟨rfl, rfl⟩

/-- Claim C6, amended: `Contains` matches by language equality during its
descent (left child when it exists and the value compares less, else the
right child when it exists, else false), so for a well-formed tree whose
comparator returns 0 only on equal values, `Contains value` is true
exactly when `value` is stored in the tree. -/
theorem C6_contains_iff_member [DecidableEq α] (cmp : α → α → Int)
    (hzero : ZeroEq cmp) {t : Tree α} (hwf : t.WellFormed cmp) (value : α) :
    t.Contains value = some true ↔ value ∈ t.SliceInOrder :=
  Contains_iff_mem hzero hwf value

/-- Witness for the amended C6 on a concrete one-node tree. -/
theorem C6_contains_iff_member_witness :
    (Tree.mk (some intCompare) (Node.node 1 .nil .nil 0) 1).Contains 1 = some true
      ↔ 1 ∈ (Tree.mk (some intCompare) (Node.node 1 .nil .nil 0) 1).SliceInOrder := by
  refine C6_contains_iff_member intCompare intCompare_zeroEq ?_ 1
  refine ⟨rfl, ?_⟩
  exact ⟨trivial, trivial, by simp, by simp⟩

/-- Claim C7: inserting any finite list of integers into `NewOrdered` and
removing the same values in any permuted order succeeds at every step
(each `Remove` returns true) and leaves the tree empty, `Len() == 0`. -/
theorem C7_insert_remove_round_trip (adds rems : List Int) (hperm : rems.Perm adds) :
    ∃ t t2 oks, NewOrdered.addAll adds = some t ∧
      t.removeSeq rems = some (t2, oks) ∧
      oks.all (fun b => b) = true ∧ t2.Len = 0 := by
  obtain ⟨t, heq, hwf, hcount, hpm⟩ :=
    addAll_good intCompare_flip intCompare_trans adds (New_WellFormed intCompare) rfl
  have hpm2 : t.root.inorder.Perm rems := by
    have h0 : (New intCompare).root.inorder = ([] : List Int) := rfl
    rw [h0, List.append_nil] at hpm
    exact hpm.trans hperm.symm
  obtain ⟨t2, oks, heq2, hall, hcnt, _⟩ :=
    removeSeq_all intCompare_flip intCompare_trans intCompare_zeroEq rems hwf hcount hpm2
  exact ⟨t, t2, oks, heq, heq2, hall, hcnt⟩

/-- Witness for C7 with duplicates removed in a different order. -/
theorem C7_insert_remove_round_trip_witness :
    ∃ t t2 oks, NewOrdered.addAll [1, 2, 2] = some t ∧
      t.removeSeq [2, 1, 2] = some (t2, oks) ∧
      oks.all (fun b => b) = true ∧ t2.Len = 0 :=
  C7_insert_remove_round_trip [1, 2, 2] [2, 1, 2] (by decide)

/-- Claim C8: right-rotating the hand-built left-heavy tree with root 4
(height 2), left child 2 (height 1) over leaves 1 and 3, yields root 2
(height 2) with left child 1 (height 0) and right child 4 (height 1)
whose left child is 3 (height 0), exactly as the unit test expects. -/
theorem C8_rotate_right_unit :
    (Node.node 4 (Node.node 2 (Node.node 1 .nil .nil 0)
        (Node.node 3 .nil .nil 0) 1) .nil 2 : Node Int).rotateRight
      = Node.node 2 (Node.node 1 .nil .nil 0)
          (Node.node 4 (Node.node 3 .nil .nil 0) .nil 1) 2 := by
  rfl

/-- Claim C9: for a node with a non-empty right child, `rotateLeft`
leaves the in-order value sequence unchanged, and symmetrically
`rotateRight` does for a node with a non-empty left child. -/
theorem C9_rotations_preserve_inorder (n m : Node α)
    (hn : n.rightOf ≠ .nil) (hm : m.leftOf ≠ .nil) :
    n.rotateLeft.inorder = n.inorder ∧ m.rotateRight.inorder = m.inorder :=
  ⟨Node.inorder_rotateLeft n, Node.inorder_rotateRight m⟩

/-- Witness for C9 on concrete two-node trees. -/
theorem C9_rotations_preserve_inorder_witness :
    (Node.node 1 .nil (Node.node 2 .nil .nil 0) 0 : Node Int).rotateLeft.inorder
        = (Node.node 1 .nil (Node.node 2 .nil .nil 0) 0 : Node Int).inorder
      ∧ (Node.node 3 (Node.node 2 .nil .nil 0) .nil 0 : Node Int).rotateRight.inorder
        = (Node.node 3 (Node.node 2 .nil .nil 0) .nil 0 : Node Int).inorder :=
  C9_rotations_preserve_inorder
    (Node.node 1 .nil (Node.node 2 .nil .nil 0) 0)
    (Node.node 3 (Node.node 2 .nil .nil 0) .nil 0)
    (by decide) (by decide)

/-- Claim C10: `Clear` empties the root and zeroes the count while the
comparator field is left untouched, so later `Add`, `Contains` and
`Remove` calls keep using the comparator supplied at construction. -/
theorem C10_clear_frame_condition (t : Tree α) :
    t.Clear.root = .nil ∧ t.Clear.count = 0 ∧ t.Clear.compare = t.compare :=
  ⟨rfl, rfl, rfl⟩

end avl
